import Mathlib

/-!
Shallow embedding of `src/app.py` (YTView).

The program is a Streamlit page whose core is `poll_progress` (lines 65-128),
a loop that polls a progress endpoint until a remote transcoding job
finishes.  The embedding models:

* `extract_video_id` (lines 33-42) — a regex search for
  `(?:v=|\/v\/|youtu\.be\/|\/embed\/)([A-Za-z0-9_-]{11})` over the input;
* the artifact-URL cleanup `re.sub(r"(?<!:)\/{2,}", "/", raw_url)` (line 125);
* `poll_progress` — the loop itself, as a function of a script of
  environment events (the monotonic-clock reading at the top of each
  iteration together with the outcome of that iteration's HTTP attempt),
  returning the trace of progress reports / sleeps and the terminal result.

Modelling notes, all taken from the source:

* `time.monotonic()` readings are the `now` field of each `Step`; the code
  compares `time.monotonic() - started_at > max_total_wait_seconds`
  (line 74).  Times are `Nat`; truncated subtraction agrees with the
  real-number comparison whenever `now ≥ started_at`, which the monotonic
  clock guarantees.
* `requests.get` either yields a response (a status code plus an optionally
  parsable JSON body), raises `requests.ConnectionError`, or raises
  `requests.Timeout` (the two exception classes caught on line 100).
  `resp.raise_for_status()` (line 96) raises `requests.HTTPError` exactly
  for status codes in 400..599 (4xx client errors and 5xx server errors);
  any other status — including a 3xx that survives redirect handling —
  falls through to body parsing.  An unparsable body makes `resp.json()`
  (line 97) raise; that exception, like `HTTPError`, is not caught by the
  `except (requests.ConnectionError, requests.Timeout)` clause and escapes
  the loop (modelled as a terminal result).
* `pct = min(progress / 10, 100)` followed by `int(pct)` (lines 114-115) is
  Python float division followed by truncation toward zero, which on
  integer `progress` equals `min (Int.div progress 10) 100` (`Int.div`
  truncates toward zero, and `min`/truncation commute since 100 is an
  integer).
* `data.get("progress", 0)` is a field with default 0 (`Option.getD`);
  `not raw_url` (line 119) is true for a missing field and for the empty
  string.
* The loop body emits `bar.progress(...)` events (progress reports to the
  presentation sink) and `time.sleep(...)` waits; both are recorded in the
  trace in program order.  The initial `placeholder.progress(0, ...)` on
  line 67 happens once before the loop and is not part of the iteration
  trace modelled here.
-/

namespace YTView

/-- Character class of the regex fragment `[A-Za-z0-9_-]` (line 36). -/
def idChar (c : Char) : Bool :=
  decide ('A' ≤ c ∧ c ≤ 'Z') || decide ('a' ≤ c ∧ c ≤ 'z') ||
    decide ('0' ≤ c ∧ c ≤ '9') || c == '_' || c == '-'

/-- The four alternatives of the non-capturing group `(?:v=|\/v\/|youtu\.be\/|\/embed\/)`. -/
def markerV : List Char := ['v', '=']

def markerSlashV : List Char := ['/', 'v', '/']

def markerYoutuBe : List Char := ['y', 'o', 'u', 't', 'u', '.', 'b', 'e', '/']

def markerEmbed : List Char := ['/', 'e', 'm', 'b', 'e', 'd', '/']

def markerList : List (List Char) := [markerV, markerSlashV, markerYoutuBe, markerEmbed]

/-- Try to match one marker alternative followed by `[A-Za-z0-9_-]{11}` at the
start of `l`, returning the captured group. -/
def tryMarker (m l : List Char) : Option (List Char) :=
  if m.isPrefixOf l then
    if ((l.drop m.length).take 11).length = 11 ∧ ((l.drop m.length).take 11).all idChar then
      some ((l.drop m.length).take 11)
    else none
  else none

/-- Try all four alternatives at one start position.  At any position at most
one alternative can match (their first characters differ, and `/v/` and
`/embed/` differ at the second character), so alternative order is
irrelevant. -/
def tryAt (l : List Char) : Option (List Char) :=
  match tryMarker markerV l with
  | some r => some r
  | none =>
    match tryMarker markerSlashV l with
    | some r => some r
    | none =>
      match tryMarker markerYoutuBe l with
      | some r => some r
      | none => tryMarker markerEmbed l

/-- `re.search`: scan start positions left to right. -/
def searchId : List Char → Option (List Char)
  | [] => none
  | c :: rest =>
    match tryAt (c :: rest) with
    | some r => some r
    | none => searchId rest

/-- `extract_video_id` (lines 33-42): return the first regex match's capture
group, or `None`. -/
def extract_video_id (url : String) : Option String :=
  (searchId url.data).map fun l => ⟨l⟩

/-! ### Artifact-URL sanitization, line 125

`clean_url = re.sub(r"(?<!:)\/{2,}", "/", raw_url)`.

`re.sub` scans the string left to right; at each position it matches a
maximal (greedy) run of at least two `/` whose preceding character is not
`:` (negative lookbehind against the original string) and replaces the run
by a single `/`, resuming after the match.  On a maximal run of `k ≥ 1`
slashes this leaves one slash when the run is not preceded by `:`
(`k = 1`: no match; `k ≥ 2`: the whole run is one match), and
`min k 2` slashes when it is preceded by `:` (the first slash is protected
by the lookbehind; the remaining `k - 1` slashes collapse to one when
`k ≥ 3`, or stay as the single second slash when `k = 2`).  Character by
character this is: drop a `/` exactly when the previous character of the
original string is `/` and the character before that is not `:`.
`sanGo p2 p1 l` processes `l` where `p1` is the original character just
before `l` and `p2` the one before that. -/
def sanGo : Option Char → Option Char → List Char → List Char
  | _, _, [] => []
  | p2, p1, c :: rest =>
    if c = '/' ∧ p1 = some '/' ∧ p2 ≠ some ':' then
      sanGo p1 (some c) rest
    else
      c :: sanGo p1 (some c) rest

/-- The sanitization applied to the raw download URL (line 125). -/
def sanitize (s : String) : String := ⟨sanGo none none s.data⟩

/-- Length of the leading run of `/` of a string. -/
def slashRun (l : List Char) : Nat := (l.takeWhile fun c => c = '/').length

/-- What remains of a string after its leading run of `/`. -/
def afterRun (l : List Char) : List Char := l.dropWhile fun c => c = '/'

theorem afterRun_length_le (l : List Char) : (afterRun l).length ≤ l.length := by
  induction l with
  | nil => simp [afterRun]
  | cons c rest ih =>
    by_cases h : c = '/'
    · simpa [afterRun, List.dropWhile_cons, h] using le_trans ih (Nat.le_succ _)
    · simp [afterRun, List.dropWhile_cons, h]

/-- Reference formulation of the sanitization, written from the specified
rule rather than from the regex: walk the string run by run; a maximal run
of `k` slashes becomes a single slash, except that a run immediately
following `:` keeps its leading `//` (it becomes `min k 2` slashes); all
other characters are kept.  `prev` is the character just before the rest of
the string. -/
def specGo : Option Char → List Char → List Char
  | _, [] => []
  | prev, c :: rest =>
    if c = '/' then
      (if prev = some ':' then List.replicate (min (1 + slashRun rest) 2) '/' else ['/']) ++
        specGo (some '/') (afterRun rest)
    else
      c :: specGo (some c) rest
termination_by _ l => l.length
decreasing_by
  · simp only [List.length_cons]
    exact Nat.lt_succ_of_le (afterRun_length_le rest)
  · simp only [List.length_cons]
    exact Nat.lt_succ_self rest.length

/-- The sanitization as the specification words it. -/
def specSanitize (s : String) : String := ⟨specGo none s.data⟩

/-! ### The polling loop, lines 65-128 -/

/-- A parsed JSON body: `data.get("progress", 0)` and
`data.get("download_url")`. -/
structure Body where
  progress : Option Int
  download_url : Option String
deriving DecidableEq

/-- Outcome of one `requests.get(progress_url, timeout=20)` attempt:
a response with its status code and (if the body parses as JSON) its parsed
body, or a raised `requests.ConnectionError` / `requests.Timeout`. -/
inductive HttpResult where
  | resp (status : Nat) (body : Option Body)
  | connError
  | timeout
deriving DecidableEq

/-- One loop iteration's environment: the `time.monotonic()` reading at the
top of the iteration and the HTTP attempt's outcome. -/
structure Step where
  now : Nat
  http : HttpResult
deriving DecidableEq

/-- Observable actions of the loop body: a `bar.progress(pct, ...)` report to
the presentation sink, or a `time.sleep(secs)`. -/
inductive Ev where
  | report (pct : Int)
  | sleep (secs : Nat)
deriving DecidableEq

/-- Terminal results of `poll_progress`: the returned clean URL, or one of
the raised exceptions (`TimeoutError`, the two retry-budget `RuntimeError`s,
`requests.HTTPError` from `raise_for_status`, a JSON decode error from
`resp.json()`, the missing-download-URL `RuntimeError`), or the modelling
artifact `scriptEnded` for a run whose event script ran out while the loop
would have continued. -/
inductive PollResult where
  | success (url : String)
  | timeoutErr
  | serverUnavailable
  | networkErr
  | httpError (status : Nat)
  | parseError
  | noUrlError
  | scriptEnded
deriving DecidableEq

/-- Line 11. -/
def TRANSIENT_STATUS_CODES : List Nat := [502, 503, 504, 520, 522, 524]

/-- Line 70. -/
def max_transient_failures : Nat := 20

/-- Line 71. -/
def max_total_wait_seconds : Nat := 15 * 60

/-- Lines 88 and 105: `wait_seconds = min(2 + transient_failures, 10)`,
computed after the counter was incremented. -/
def nextDelay (transient_failures : Nat) : Nat := min (2 + transient_failures) 10

/-- Lines 114-115: `int(min(progress / 10, 100))`; `Int.tdiv` truncates
toward zero like Python's `int()` applied to the float quotient. -/
def emitPct (progress : Int) : Int := min (Int.tdiv progress 10) 100

/-- The loop of `poll_progress` (lines 73-128) over a script of environment
events, carrying the `transient_failures` counter.  Each `Step` is one
iteration of the `while True` loop. -/
def poll_progress (started_at : Nat) : Nat → List Step → List Ev × PollResult
  | _, [] => ([], .scriptEnded)
  | transient_failures, step :: rest =>
    if step.now - started_at > max_total_wait_seconds then
      ([], .timeoutErr)
    else
      match step.http with
      | .connError =>
        if transient_failures + 1 > max_transient_failures then ([], .networkErr)
        else
          (.report 0 :: .sleep (nextDelay (transient_failures + 1)) ::
              (poll_progress started_at (transient_failures + 1) rest).1,
            (poll_progress started_at (transient_failures + 1) rest).2)
      | .timeout =>
        if transient_failures + 1 > max_transient_failures then ([], .networkErr)
        else
          (.report 0 :: .sleep (nextDelay (transient_failures + 1)) ::
              (poll_progress started_at (transient_failures + 1) rest).1,
            (poll_progress started_at (transient_failures + 1) rest).2)
      | .resp status body =>
        if status ∈ TRANSIENT_STATUS_CODES then
          if transient_failures + 1 > max_transient_failures then ([], .serverUnavailable)
          else
            (.report 0 :: .sleep (nextDelay (transient_failures + 1)) ::
                (poll_progress started_at (transient_failures + 1) rest).1,
              (poll_progress started_at (transient_failures + 1) rest).2)
        else if 400 ≤ status ∧ status < 600 then ([], .httpError status)
        else
          match body with
          | none => ([], .parseError)
          | some data =>
            if data.progress.getD 0 ≥ 1000 then
              match data.download_url with
              | none => ([.report (emitPct (data.progress.getD 0))], .noUrlError)
              | some u =>
                if u = "" then ([.report (emitPct (data.progress.getD 0))], .noUrlError)
                else
                  ([.report (emitPct (data.progress.getD 0)), .report 100],
                    .success (sanitize u))
            else
              (.report (emitPct (data.progress.getD 0)) :: .sleep 2 ::
                  (poll_progress started_at 0 rest).1,
                (poll_progress started_at 0 rest).2)

/-- The progress values reported to the sink, in order. -/
def reportsOf (evs : List Ev) : List Int :=
  evs.filterMap fun e => match e with | .report p => some p | .sleep _ => none

/-- The sleep durations, in order. -/
def sleepsOf (evs : List Ev) : List Nat :=
  evs.filterMap fun e => match e with | .sleep w => some w | .report _ => none

/-- An attempt outcome the loop classifies as transient: a listed status code
(line 80) or a connection error / request timeout (line 100). -/
def isTransient : HttpResult → Bool
  | .connError => true
  | .timeout => true
  | .resp status _ => decide (status ∈ TRANSIENT_STATUS_CODES)

/-- The parsed body of an attempt that reaches line 97 (`data = resp.json()`
succeeds): status not in the transient set, not in 400..599, body parsable. -/
def httpParsed : HttpResult → Option Body
  | .resp status (some b) =>
    if status ∈ TRANSIENT_STATUS_CODES then none
    else if 400 ≤ status ∧ status < 600 then none
    else some b
  | _ => none

/-- A step whose iteration takes the `Polling → Polling` self-loop: inside
the time ceiling, successfully parsed, progress below 1000. -/
def isContinueStep (started_at : Nat) (s : Step) : Bool :=
  decide (s.now - started_at ≤ max_total_wait_seconds) &&
    match httpParsed s.http with
    | some b => decide (b.progress.getD 0 < 1000)
    | none => false

/-- A step whose attempt parses successfully and carries nonnegative
progress. -/
def isParsedStep (s : Step) : Bool :=
  match httpParsed s.http with
  | some b => decide (0 ≤ b.progress.getD 0)
  | none => false

/-- The raw progress value a step carries (0 when it has no parsed body). -/
def stepProgress (s : Step) : Int :=
  match httpParsed s.http with
  | some b => b.progress.getD 0
  | none => 0

/-! ### One-iteration characterizations of the loop -/

theorem poll_cons_timeout (a f : Nat) (s : Step) (rest : List Step)
    (h : s.now - a > max_total_wait_seconds) :
    poll_progress a f (s :: rest) = ([], .timeoutErr) := by
  obtain ⟨now, http⟩ := s
  simp only [poll_progress]
  rw [if_pos h]

theorem poll_cons_transient_retry (a f : Nat) (s : Step) (rest : List Step)
    (ht : ¬ s.now - a > max_total_wait_seconds)
    (htr : isTransient s.http = true)
    (hf : f + 1 ≤ max_transient_failures) :
    poll_progress a f (s :: rest) =
      (.report 0 :: .sleep (nextDelay (f + 1)) :: (poll_progress a (f + 1) rest).1,
        (poll_progress a (f + 1) rest).2) := by
  obtain ⟨now, http⟩ := s
  have hf' : ¬ f + 1 > max_transient_failures := by omega
  cases http with
  | connError =>
    simp only [poll_progress]
    rw [if_neg ht, if_neg hf']
  | timeout =>
    simp only [poll_progress]
    rw [if_neg ht, if_neg hf']
  | resp st body =>
    have hmem : st ∈ TRANSIENT_STATUS_CODES := of_decide_eq_true htr
    simp only [poll_progress]
    rw [if_neg ht, if_pos hmem, if_neg hf']

theorem poll_cons_transient_abort (a f : Nat) (s : Step) (rest : List Step)
    (ht : ¬ s.now - a > max_total_wait_seconds)
    (htr : isTransient s.http = true)
    (hf : f + 1 > max_transient_failures) :
    (poll_progress a f (s :: rest)).1 = [] ∧
      ((poll_progress a f (s :: rest)).2 = .serverUnavailable ∨
        (poll_progress a f (s :: rest)).2 = .networkErr) := by
  obtain ⟨now, http⟩ := s
  cases http with
  | connError =>
    simp only [poll_progress]
    rw [if_neg ht, if_pos hf]
    exact ⟨rfl, Or.inr rfl⟩
  | timeout =>
    simp only [poll_progress]
    rw [if_neg ht, if_pos hf]
    exact ⟨rfl, Or.inr rfl⟩
  | resp st body =>
    have hmem : st ∈ TRANSIENT_STATUS_CODES := of_decide_eq_true htr
    simp only [poll_progress]
    rw [if_neg ht, if_pos hmem, if_pos hf]
    exact ⟨rfl, Or.inl rfl⟩

theorem poll_cons_fatal_status (a f now st : Nat) (body : Option Body) (rest : List Step)
    (ht : ¬ now - a > max_total_wait_seconds)
    (h1 : st ∉ TRANSIENT_STATUS_CODES)
    (h2 : 400 ≤ st) (h3 : st < 600) :
    poll_progress a f (⟨now, .resp st body⟩ :: rest) = ([], .httpError st) := by
  simp only [poll_progress]
  rw [if_neg ht, if_neg h1, if_pos ⟨h2, h3⟩]

theorem poll_cons_parse_fail (a f now st : Nat) (rest : List Step)
    (ht : ¬ now - a > max_total_wait_seconds)
    (h1 : st ∉ TRANSIENT_STATUS_CODES)
    (h2 : ¬ (400 ≤ st ∧ st < 600)) :
    poll_progress a f (⟨now, .resp st none⟩ :: rest) = ([], .parseError) := by
  simp only [poll_progress]
  rw [if_neg ht, if_neg h1, if_neg h2]

theorem poll_cons_continue (a f now st : Nat) (b : Body) (rest : List Step)
    (ht : ¬ now - a > max_total_wait_seconds)
    (h1 : st ∉ TRANSIENT_STATUS_CODES)
    (h2 : ¬ (400 ≤ st ∧ st < 600))
    (hlt : b.progress.getD 0 < 1000) :
    poll_progress a f (⟨now, .resp st (some b)⟩ :: rest) =
      (.report (emitPct (b.progress.getD 0)) :: .sleep 2 :: (poll_progress a 0 rest).1,
        (poll_progress a 0 rest).2) := by
  simp only [poll_progress]
  rw [if_neg ht, if_neg h1, if_neg h2, if_neg (by omega : ¬ b.progress.getD 0 ≥ 1000)]

theorem poll_cons_complete (a f now st : Nat) (b : Body) (u : String) (rest : List Step)
    (ht : ¬ now - a > max_total_wait_seconds)
    (h1 : st ∉ TRANSIENT_STATUS_CODES)
    (h2 : ¬ (400 ≤ st ∧ st < 600))
    (hge : b.progress.getD 0 ≥ 1000)
    (hu : b.download_url = some u) (hne : u ≠ "") :
    poll_progress a f (⟨now, .resp st (some b)⟩ :: rest) =
      ([.report (emitPct (b.progress.getD 0)), .report 100], .success (sanitize u)) := by
  simp only [poll_progress]
  rw [if_neg ht, if_neg h1, if_neg h2, if_pos hge, hu]
  simp only []
  rw [if_neg hne]

theorem poll_cons_noUrl (a f now st : Nat) (b : Body) (rest : List Step)
    (ht : ¬ now - a > max_total_wait_seconds)
    (h1 : st ∉ TRANSIENT_STATUS_CODES)
    (h2 : ¬ (400 ≤ st ∧ st < 600))
    (hge : b.progress.getD 0 ≥ 1000)
    (hu : b.download_url = none ∨ b.download_url = some "") :
    poll_progress a f (⟨now, .resp st (some b)⟩ :: rest) =
      ([.report (emitPct (b.progress.getD 0))], .noUrlError) := by
  simp only [poll_progress]
  rw [if_neg ht, if_neg h1, if_neg h2, if_pos hge]
  cases hu with
  | inl h => rw [h]
  | inr h =>
    rw [h]
    simp

theorem isContinueStep_elim (a : Nat) (s : Step) (h : isContinueStep a s = true) :
    ¬ s.now - a > max_total_wait_seconds ∧
      ∃ st b, s.http = .resp st (some b) ∧ st ∉ TRANSIENT_STATUS_CODES ∧
        ¬ (400 ≤ st ∧ st < 600) ∧ b.progress.getD 0 < 1000 := by
  obtain ⟨now, http⟩ := s
  simp only [isContinueStep, Bool.and_eq_true, decide_eq_true_eq] at h
  obtain ⟨htime, hrest⟩ := h
  refine ⟨by simp only []; omega, ?_⟩
  cases http with
  | connError => simp [httpParsed] at hrest
  | timeout => simp [httpParsed] at hrest
  | resp st body =>
    cases body with
    | none => simp [httpParsed] at hrest
    | some b =>
      by_cases h1 : st ∈ TRANSIENT_STATUS_CODES
      · simp [httpParsed, h1] at hrest
      · by_cases h2 : 400 ≤ st ∧ st < 600
        · simp [httpParsed, h1, h2] at hrest
        · simp only [httpParsed, if_neg h1, if_neg h2, decide_eq_true_eq] at hrest
          exact ⟨st, b, rfl, h1, h2, hrest⟩

theorem isParsedStep_elim (s : Step) (h : isParsedStep s = true) :
    ∃ st b, s.http = .resp st (some b) ∧ st ∉ TRANSIENT_STATUS_CODES ∧
      ¬ (400 ≤ st ∧ st < 600) ∧ 0 ≤ b.progress.getD 0 := by
  obtain ⟨now, http⟩ := s
  cases http with
  | connError => simp [isParsedStep, httpParsed] at h
  | timeout => simp [isParsedStep, httpParsed] at h
  | resp st body =>
    cases body with
    | none => simp [isParsedStep, httpParsed] at h
    | some b =>
      by_cases h1 : st ∈ TRANSIENT_STATUS_CODES
      · simp [isParsedStep, httpParsed, h1] at h
      · by_cases h2 : 400 ≤ st ∧ st < 600
        · simp [isParsedStep, httpParsed, h1, h2] at h
        · simp only [isParsedStep, httpParsed, if_neg h1, if_neg h2, decide_eq_true_eq] at h
          exact ⟨st, b, rfl, h1, h2, h⟩

/-! ### Claim theorems -/

/-- C1: at the top of every iteration, if the monotonic-clock elapsed time
since `started_at` exceeds `max_total_wait_seconds` (15 minutes, line 71),
the loop terminates with `TimeoutError` (lines 74-75), whatever the value of
the failure counter and even if every previous iteration was a `Continue`
outcome (a successfully parsed response with progress below 1000 inside the
ceiling). -/
theorem timeout_guard (started_at : Nat) (pre : List Step) (f : Nat) (s : Step)
    (rest : List Step)
    (hpre : ∀ x ∈ pre, isContinueStep started_at x = true)
    (hs : s.now - started_at > max_total_wait_seconds) :
    (poll_progress started_at f (pre ++ s :: rest)).2 = .timeoutErr := by
  induction pre generalizing f with
  | nil =>
    rw [List.nil_append, poll_cons_timeout started_at f s rest hs]
  | cons x pre ih =>
    obtain ⟨ht, st, b, hhttp, h1, h2, hlt⟩ :=
      isContinueStep_elim started_at x (hpre x (List.mem_cons_self x pre))
    obtain ⟨now, http⟩ := x
    simp only [] at hhttp ht
    subst hhttp
    rw [List.cons_append, poll_cons_continue started_at f now st b _ ht h1 h2 hlt]
    exact ih 0 fun y hy => hpre y (List.mem_cons_of_mem _ hy)

theorem timeout_guard_witness :
    ((∀ x ∈ ([⟨0, .resp 200 (some ⟨some 100, none⟩)⟩] : List Step),
        isContinueStep 0 x = true) ∧
      (Step.mk 901 .connError).now - 0 > max_total_wait_seconds) ∧
    (poll_progress 0 5
        ([⟨0, .resp 200 (some ⟨some 100, none⟩)⟩] ++ (⟨901, .connError⟩ : Step) :: [])).2 =
      .timeoutErr :=
  ⟨⟨by decide, by decide⟩,
    timeout_guard 0 [⟨0, .resp 200 (some ⟨some 100, none⟩)⟩] 5 ⟨901, .connError⟩ []
      (by decide) (by decide)⟩

/-- Scenario C's script: 25 consecutive transient failures (HTTP 503), then
a perfectly good completion step that is never reached. -/
def budgetScript : List Step :=
  List.replicate 25 ⟨0, .resp 503 none⟩ ++
    [⟨0, .resp 200 (some ⟨some 1000, some "https://x/y"⟩)⟩]

/-- C2: a transient failure is retried while the just-incremented
consecutive-failure counter is at most `max_transient_failures = 20` and the
loop aborts exactly when it exceeds 20 (lines 81-94 and 100-111); under the
25 consecutive transient failures of Scenario C the loop aborts with the
retry-budget `RuntimeError` and never returns a success. -/
theorem retry_budget :
    (∀ (started_at f : Nat) (s : Step) (rest : List Step),
      ¬ s.now - started_at > max_total_wait_seconds →
      isTransient s.http = true →
        (f + 1 ≤ max_transient_failures →
          poll_progress started_at f (s :: rest) =
            (.report 0 :: .sleep (nextDelay (f + 1)) ::
                (poll_progress started_at (f + 1) rest).1,
              (poll_progress started_at (f + 1) rest).2)) ∧
        (f + 1 > max_transient_failures →
          (poll_progress started_at f (s :: rest)).1 = [] ∧
            ((poll_progress started_at f (s :: rest)).2 = .serverUnavailable ∨
              (poll_progress started_at f (s :: rest)).2 = .networkErr))) ∧
    (poll_progress 0 0 budgetScript).2 = .serverUnavailable ∧
    (∀ u, (poll_progress 0 0 budgetScript).2 ≠ .success u) := by
  refine ⟨?_, ?_, ?_⟩
  · intro started_at f s rest ht htr
    exact ⟨poll_cons_transient_retry started_at f s rest ht htr,
      poll_cons_transient_abort started_at f s rest ht htr⟩
  · decide
  · intro u h
    rw [show (poll_progress 0 0 budgetScript).2 = .serverUnavailable by decide] at h
    exact PollResult.noConfusion h

theorem retry_budget_witness :
    ((¬ (Step.mk 0 .connError).now - 0 > max_total_wait_seconds) ∧
      isTransient (Step.mk 0 .connError).http = true) ∧
    ((0 + 1 ≤ max_transient_failures →
      poll_progress 0 0 [Step.mk 0 .connError] =
        (.report 0 :: .sleep (nextDelay (0 + 1)) :: (poll_progress 0 (0 + 1) []).1,
          (poll_progress 0 (0 + 1) []).2)) ∧
      (0 + 1 > max_transient_failures →
        (poll_progress 0 0 [Step.mk 0 .connError]).1 = [] ∧
          ((poll_progress 0 0 [Step.mk 0 .connError]).2 = .serverUnavailable ∨
            (poll_progress 0 0 [Step.mk 0 .connError]).2 = .networkErr))) :=
  ⟨⟨by decide, by decide⟩,
    retry_budget.1 0 0 (Step.mk 0 .connError) [] (by decide) (by decide)⟩

/-- Scenario B's script: three HTTP 503 responses, then a completed job. -/
def scenBScript : List Step :=
  List.replicate 3 ⟨0, .resp 503 none⟩ ++
    [⟨0, .resp 200 (some ⟨some 1000, some "https://ok/v.mp4"⟩)⟩]

/-- C3: every backoff wait is `wait_seconds = min(2 + transient_failures, 10)`
computed at the just-incremented counter (lines 88 and 105): nondecreasing in
the counter, equal to 3, 4, 5 at counts 1, 2, 3, capped at 10; in a run the
step that handles the (f+1)-st consecutive transient failure sleeps exactly
`min (2 + (f + 1)) 10`, so Scenario B's first three retries sleep 3, 4, 5. -/
theorem backoff_delay :
    (∀ f g, f ≤ g → nextDelay f ≤ nextDelay g) ∧
    nextDelay 1 = 3 ∧ nextDelay 2 = 4 ∧ nextDelay 3 = 5 ∧ (∀ f, nextDelay f ≤ 10) ∧
    (∀ (started_at f : Nat) (s : Step) (rest : List Step),
      ¬ s.now - started_at > max_total_wait_seconds →
      isTransient s.http = true → f + 1 ≤ max_transient_failures →
        (poll_progress started_at f (s :: rest)).1 =
          .report 0 :: .sleep (min (2 + (f + 1)) 10) ::
            (poll_progress started_at (f + 1) rest).1) ∧
    sleepsOf (poll_progress 0 0 scenBScript).1 = [3, 4, 5] := by
  refine ⟨?_, rfl, rfl, rfl, ?_, ?_, by decide⟩
  · intro f g h
    exact min_le_min (by omega) le_rfl
  · intro f
    exact min_le_right _ _
  · intro started_at f s rest ht htr hf
    rw [poll_cons_transient_retry started_at f s rest ht htr hf]
    simp [nextDelay]

theorem backoff_delay_witness :
    ((1 : Nat) ≤ 2) ∧ nextDelay 1 ≤ nextDelay 2 :=
  ⟨by decide, backoff_delay.1 1 2 (by decide)⟩

/-- A final response with status 300 (a non-2xx status that
`raise_for_status` does not raise on) and a parsable body. -/
def step300 : Step := ⟨0, .resp 300 (some ⟨some 500, none⟩)⟩

/-- C4 counterexample: the claim says any non-2xx status outside the
transient set is a fatal failure surfaced immediately with zero retries, but
on a status-300 response with a parsable body the loop raises nothing and
keeps polling (it emits a 50 percent report and the inter-poll sleep and
proceeds to the next iteration): `raise_for_status` only raises for
400..599. -/
theorem status300_not_fatal :
    poll_progress 0 0 [step300] = ([.report 50, .sleep 2], .scriptEnded) ∧
      (poll_progress 0 0 [step300]).2 ≠ .httpError 300 ∧
      (poll_progress 0 0 [step300]).1 ≠ [] := by
  decide

/-- C4 amended: statuses in the configured transient set, connection errors
and request timeouts are transient and share one consecutive-failure counter
(the same `f + 1` continuation for all three); any other status in 400..599
— rather than any other non-2xx status — is surfaced immediately as an HTTP
error with zero retries; a parsed body with progress at least 1000 and a
missing or empty download URL is surfaced immediately with zero retries.  A
non-2xx status below 400 or above 599 (for example a 300 that survives
redirect handling) instead falls through to body parsing. -/
theorem attempt_classification :
    (∀ (started_at f : Nat) (s : Step) (rest : List Step),
      ¬ s.now - started_at > max_total_wait_seconds →
      isTransient s.http = true → f + 1 ≤ max_transient_failures →
        poll_progress started_at f (s :: rest) =
          (.report 0 :: .sleep (nextDelay (f + 1)) ::
              (poll_progress started_at (f + 1) rest).1,
            (poll_progress started_at (f + 1) rest).2)) ∧
    (∀ (started_at f now st : Nat) (body : Option Body) (rest : List Step),
      ¬ now - started_at > max_total_wait_seconds →
      st ∉ TRANSIENT_STATUS_CODES → 400 ≤ st → st < 600 →
        poll_progress started_at f (⟨now, .resp st body⟩ :: rest) =
          ([], .httpError st)) ∧
    (∀ (started_at f now st : Nat) (b : Body) (rest : List Step),
      ¬ now - started_at > max_total_wait_seconds →
      st ∉ TRANSIENT_STATUS_CODES → ¬ (400 ≤ st ∧ st < 600) →
      1000 ≤ b.progress.getD 0 →
      (b.download_url = none ∨ b.download_url = some "") →
        poll_progress started_at f (⟨now, .resp st (some b)⟩ :: rest) =
          ([.report (emitPct (b.progress.getD 0))], .noUrlError)) := by
  refine ⟨?_, ?_, ?_⟩
  · exact fun a f s rest ht htr hf => poll_cons_transient_retry a f s rest ht htr hf
  · exact fun a f now st body rest ht h1 h2 h3 =>
      poll_cons_fatal_status a f now st body rest ht h1 h2 h3
  · exact fun a f now st b rest ht h1 h2 hge hu =>
      poll_cons_noUrl a f now st b rest ht h1 h2 hge hu

theorem attempt_classification_witness :
    ((¬ (0 : Nat) - 0 > max_total_wait_seconds) ∧ 404 ∉ TRANSIENT_STATUS_CODES ∧
      (400 : Nat) ≤ 404 ∧ (404 : Nat) < 600) ∧
    poll_progress 0 3 [⟨0, .resp 404 none⟩] = ([], .httpError 404) :=
  ⟨⟨by decide, by decide, by decide, by decide⟩,
    attempt_classification.2.1 0 3 0 404 none [] (by decide) (by decide) (by decide)
      (by decide)⟩

/-- C5 counterexample: the claim says the consecutive-failure counter resets
exactly on a successfully parsed 2xx response.  Start the loop with the
counter already at the ceiling of 20 and feed it a parsed status-300
response followed by a connection error: the code resets the counter on the
non-2xx parsed response (line 98 runs whenever `resp.json()` succeeds), so
the subsequent connection error is only failure number 1 and is retried; had
the counter not been reset, failure number 21 would have exhausted the
budget and aborted with the network `RuntimeError`. -/
theorem reset_on_non2xx :
    poll_progress 0 20 [step300, ⟨0, .connError⟩] =
        ([.report 50, .sleep 2, .report 0, .sleep 3], .scriptEnded) ∧
      (poll_progress 0 20 [step300, ⟨0, .connError⟩]).2 ≠ .networkErr := by
  decide

/-- C5 amended: the counter is reset to 0 exactly when an attempt's response
body parses successfully (status outside the transient set and outside
400..599 — not only 2xx), regardless of the numeric progress value; on the
backoff-to-polling transition the counter is carried as `f + 1`, never
reset. -/
theorem failure_counter_reset :
    (∀ (started_at f now st : Nat) (b : Body) (rest : List Step),
      ¬ now - started_at > max_total_wait_seconds →
      st ∉ TRANSIENT_STATUS_CODES → ¬ (400 ≤ st ∧ st < 600) →
      b.progress.getD 0 < 1000 →
        poll_progress started_at f (⟨now, .resp st (some b)⟩ :: rest) =
          (.report (emitPct (b.progress.getD 0)) :: .sleep 2 ::
              (poll_progress started_at 0 rest).1,
            (poll_progress started_at 0 rest).2)) ∧
    (∀ (started_at f : Nat) (s : Step) (rest : List Step),
      ¬ s.now - started_at > max_total_wait_seconds →
      isTransient s.http = true → f + 1 ≤ max_transient_failures →
        poll_progress started_at f (s :: rest) =
          (.report 0 :: .sleep (nextDelay (f + 1)) ::
              (poll_progress started_at (f + 1) rest).1,
            (poll_progress started_at (f + 1) rest).2)) := by
  constructor
  · exact fun a f now st b rest ht h1 h2 hlt =>
      poll_cons_continue a f now st b rest ht h1 h2 hlt
  · exact fun a f s rest ht htr hf => poll_cons_transient_retry a f s rest ht htr hf

theorem failure_counter_reset_witness :
    ((¬ (0 : Nat) - 0 > max_total_wait_seconds) ∧ 200 ∉ TRANSIENT_STATUS_CODES ∧
      (¬ ((400 : Nat) ≤ 200 ∧ (200 : Nat) < 600)) ∧
      (Body.mk (some 420) none).progress.getD 0 < 1000) ∧
    poll_progress 0 17 [⟨0, .resp 200 (some ⟨some 420, none⟩)⟩] =
      (.report (emitPct ((Body.mk (some 420) none).progress.getD 0)) :: .sleep 2 ::
          (poll_progress 0 0 []).1,
        (poll_progress 0 0 []).2) :=
  ⟨⟨by decide, by decide, by decide, by decide⟩,
    failure_counter_reset.1 0 17 0 200 ⟨some 420, none⟩ [] (by decide) (by decide)
      (by decide) (by decide)⟩

/-- A 2xx response whose body reports raw progress -20. -/
def stepNeg : Step := ⟨0, .resp 200 (some ⟨some (-20), none⟩)⟩

/-- C6 counterexample: the claim says the emitted percent is floor(r / 10)
clamped to [0, 100], so in particular always in [0, 100]; but
`min(progress / 10, 100)` has no lower clamp, and on raw progress -20 the
loop reports -2 to the sink. -/
theorem negative_progress_report :
    (poll_progress 0 0 [stepNeg]).1 = [.report (-2), .sleep 2] ∧ ((-2 : Int) < 0) := by
  decide

/-- C6 amended: the emitted percent is `min(trunc(r / 10), 100)` — clamped
above at 100 but not below at 0.  For nonnegative raw progress this equals
floor(r / 10) clamped to [0, 100], as the claim states; a negative raw value
can produce a negative percent.  On a parsed response that continues the
loop, the first event emitted is exactly that percent. -/
theorem progress_percent_formula :
    (∀ r : Int, 0 ≤ r →
      emitPct r = min (Int.ediv r 10) 100 ∧ 0 ≤ emitPct r ∧ emitPct r ≤ 100) ∧
    (∀ r : Int, emitPct r ≤ 100) ∧
    (∀ (started_at f now st : Nat) (b : Body) (rest : List Step),
      ¬ now - started_at > max_total_wait_seconds →
      st ∉ TRANSIENT_STATUS_CODES → ¬ (400 ≤ st ∧ st < 600) →
      b.progress.getD 0 < 1000 →
        ((poll_progress started_at f (⟨now, .resp st (some b)⟩ :: rest)).1).head? =
          some (.report (emitPct (b.progress.getD 0)))) := by
  refine ⟨?_, fun r => min_le_right _ _, ?_⟩
  · intro r hr
    obtain ⟨n, rfl⟩ := Int.eq_ofNat_of_zero_le hr
    refine ⟨rfl, le_min ?_ (by omega), min_le_right _ _⟩
    show (0 : Int) ≤ Int.tdiv (Int.ofNat n) 10
    exact Int.tdiv_nonneg (Int.ofNat_nonneg n) (by omega)
  · intro a f now st b rest ht h1 h2 hlt
    rw [poll_cons_continue a f now st b rest ht h1 h2 hlt]
    rfl

theorem progress_percent_formula_witness :
    ((0 : Int) ≤ 57) ∧
    (emitPct 57 = min (Int.ediv 57 10) 100 ∧ 0 ≤ emitPct 57 ∧ emitPct 57 ≤ 100) :=
  ⟨by decide, progress_percent_formula.1 57 (by decide)⟩

theorem emitPct_mono {a b : Int} (ha : 0 ≤ a) (hab : a ≤ b) :
    emitPct a ≤ emitPct b := by
  obtain ⟨m, rfl⟩ := Int.eq_ofNat_of_zero_le ha
  obtain ⟨k, rfl⟩ := Int.eq_ofNat_of_zero_le (le_trans ha hab)
  have hmk : m ≤ k := Int.ofNat_le.mp hab
  have h1 : Int.tdiv (↑m) 10 = Int.ofNat (m / 10) := rfl
  have h2 : Int.tdiv (↑k) 10 = Int.ofNat (k / 10) := rfl
  unfold emitPct
  rw [h1, h2]
  exact min_le_min (Int.ofNat_le.mpr (Nat.div_le_div_right hmk)) le_rfl

theorem stepProgress_parsed (now st : Nat) (b : Body)
    (h1 : st ∉ TRANSIENT_STATUS_CODES) (h2 : ¬ (400 ≤ st ∧ st < 600)) :
    stepProgress ⟨now, .resp st (some b)⟩ = b.progress.getD 0 := by
  simp [stepProgress, httpParsed, h1, h2]

/-- If every step of `rest` parses successfully, the first report the run of
`rest` emits (if any) is the percent of `rest`'s first step, hence at least
`emitPct r` whenever that step's progress is at least `r ≥ 0`. -/
theorem reports_head_ge (started_at f : Nat) (rest : List Step) (r : Int)
    (hr : 0 ≤ r)
    (hparsed : ∀ s ∈ rest, isParsedStep s = true)
    (hfirst : ∀ s2 ∈ rest.head?, r ≤ stepProgress s2) :
    ∀ q ∈ (reportsOf (poll_progress started_at f rest).1).head?, emitPct r ≤ q := by
  cases rest with
  | nil => intro q hq; simp [poll_progress, reportsOf] at hq
  | cons s2 rest₂ =>
    obtain ⟨st, b, hhttp, h1, h2, hge0⟩ :=
      isParsedStep_elim s2 (hparsed s2 (List.mem_cons_self s2 rest₂))
    obtain ⟨now, http⟩ := s2
    simp only [] at hhttp
    subst hhttp
    have hsp : r ≤ b.progress.getD 0 := by
      have h := hfirst ⟨now, .resp st (some b)⟩ rfl
      rwa [stepProgress_parsed now st b h1 h2] at h
    have hmono := emitPct_mono hr hsp
    by_cases htime : (Step.mk now (.resp st (some b))).now - started_at >
        max_total_wait_seconds
    · rw [poll_cons_timeout started_at f _ rest₂ htime]
      intro q hq
      simp [reportsOf] at hq
    · by_cases hge : b.progress.getD 0 ≥ 1000
      · rcases hu : b.download_url with _ | u
        · rw [poll_cons_noUrl started_at f now st b rest₂ htime h1 h2 hge (Or.inl hu)]
          intro q hq
          simp only [reportsOf, List.filterMap, List.head?, Option.mem_def,
            Option.some.injEq] at hq
          omega
        · by_cases hue : u = ""
          · subst hue
            rw [poll_cons_noUrl started_at f now st b rest₂ htime h1 h2 hge (Or.inr hu)]
            intro q hq
            simp only [reportsOf, List.filterMap, List.head?, Option.mem_def,
              Option.some.injEq] at hq
            omega
          · rw [poll_cons_complete started_at f now st b u rest₂ htime h1 h2 hge hu hue]
            intro q hq
            simp only [reportsOf, List.filterMap, List.head?, Option.mem_def,
              Option.some.injEq] at hq
            omega
      · rw [poll_cons_continue started_at f now st b rest₂ htime h1 h2 (by omega)]
        intro q hq
        simp only [reportsOf, List.filterMap, List.head?, Option.mem_def,
          Option.some.injEq] at hq
        omega

/-- C7 counterexample: reported percentages are not monotone over a whole
run: every transient-failure iteration reports 0 to the bar (lines 89-92 and
106-109), so a 503 or connection error after any real progress lowers the
displayed percentage.  Here a parsed 50 percent is followed by a connection
error: the sink sees [50, 0]. -/
theorem report_decrease :
    reportsOf (poll_progress 0 0
        [⟨0, .resp 200 (some ⟨some 500, none⟩)⟩, ⟨0, .connError⟩]).1 = [50, 0] ∧
      ¬ List.Chain' (fun a b => a ≤ b)
        (reportsOf (poll_progress 0 0
          [⟨0, .resp 200 (some ⟨some 500, none⟩)⟩, ⟨0, .connError⟩]).1) := by
  constructor
  · decide
  · intro h
    rw [show reportsOf (poll_progress 0 0
        [⟨0, .resp 200 (some ⟨some 500, none⟩)⟩, ⟨0, .connError⟩]).1 =
        ([50, 0] : List Int) by decide] at h
    have := (List.chain'_pair.mp h)
    omega

/-- C7 amended: the code never tracks a last-reported percent, so
monotonicity holds only on the failure-free fragment: if every scripted
attempt parses successfully with nonnegative raw progress and the raw
progress values are nondecreasing along the script, then the sequence of
percentages reported to the sink is nondecreasing (the final 100 percent
report on completion included).  Iterations that handle transient failures
report 0 instead, which can lower the displayed percentage. -/
theorem reports_monotone (started_at f : Nat) (script : List Step)
    (hparsed : ∀ s ∈ script, isParsedStep s = true)
    (hmono : List.Chain' (fun a b => stepProgress a ≤ stepProgress b) script) :
    List.Chain' (fun a b : Int => a ≤ b)
      (reportsOf (poll_progress started_at f script).1) := by
  induction script generalizing f with
  | nil => simp [poll_progress, reportsOf]
  | cons s rest ih =>
    obtain ⟨st, b, hhttp, h1, h2, hge0⟩ :=
      isParsedStep_elim s (hparsed s (List.mem_cons_self s rest))
    obtain ⟨now, http⟩ := s
    simp only [] at hhttp
    subst hhttp
    by_cases htime : (Step.mk now (.resp st (some b))).now - started_at >
        max_total_wait_seconds
    · rw [poll_cons_timeout started_at f _ rest htime]
      simp [reportsOf]
    · by_cases hge : b.progress.getD 0 ≥ 1000
      · rcases hu : b.download_url with _ | u
        · rw [poll_cons_noUrl started_at f now st b rest htime h1 h2 hge (Or.inl hu)]
          simp [reportsOf]
        · by_cases hue : u = ""
          · subst hue
            rw [poll_cons_noUrl started_at f now st b rest htime h1 h2 hge (Or.inr hu)]
            simp [reportsOf]
          · rw [poll_cons_complete started_at f now st b u rest htime h1 h2 hge hu hue]
            have : reportsOf [Ev.report (emitPct (b.progress.getD 0)), Ev.report 100] =
                [emitPct (b.progress.getD 0), 100] := rfl
            rw [this, List.chain'_pair]
            exact min_le_right _ _
      · rw [poll_cons_continue started_at f now st b rest htime h1 h2 (by omega)]
        have hrw : reportsOf (Ev.report (emitPct (b.progress.getD 0)) :: Ev.sleep 2 ::
            (poll_progress started_at 0 rest).1) =
            emitPct (b.progress.getD 0) :: reportsOf (poll_progress started_at 0 rest).1 :=
          rfl
        rw [hrw, List.chain'_cons']
        have hparsed' : ∀ x ∈ rest, isParsedStep x = true :=
          fun x hx => hparsed x (List.mem_cons_of_mem _ hx)
        have hpair := List.chain'_cons'.mp hmono
        constructor
        · refine reports_head_ge started_at 0 rest (b.progress.getD 0) hge0 hparsed' ?_
          intro s2 hs2
          have h := hpair.1 s2 hs2
          rwa [stepProgress_parsed now st b h1 h2] at h
        · exact ih 0 hparsed' hpair.2

theorem reports_monotone_witness :
    ((∀ s ∈ ([⟨0, .resp 200 (some ⟨some 300, none⟩)⟩,
          ⟨5, .resp 200 (some ⟨some 700, some "https://a/b"⟩)⟩] : List Step),
        isParsedStep s = true) ∧
      List.Chain' (fun a b => stepProgress a ≤ stepProgress b)
        ([⟨0, .resp 200 (some ⟨some 300, none⟩)⟩,
          ⟨5, .resp 200 (some ⟨some 700, some "https://a/b"⟩)⟩] : List Step)) ∧
    List.Chain' (fun a b : Int => a ≤ b)
      (reportsOf (poll_progress 0 0
        [⟨0, .resp 200 (some ⟨some 300, none⟩)⟩,
          ⟨5, .resp 200 (some ⟨some 700, some "https://a/b"⟩)⟩]).1) :=
  ⟨⟨by decide, List.chain'_pair.mpr (by decide)⟩,
    reports_monotone 0 0
      [⟨0, .resp 200 (some ⟨some 300, none⟩)⟩,
        ⟨5, .resp 200 (some ⟨some 700, some "https://a/b"⟩)⟩]
      (by decide) (List.chain'_pair.mpr (by decide))⟩

/-! ### C10: shape of the extracted video id -/

theorem isPrefixOf_append (m : List Char) :
    ∀ l : List Char, m.isPrefixOf l = true → l = m ++ l.drop m.length := by
  induction m with
  | nil => intro l _; simp
  | cons c m ih =>
    intro l h
    cases l with
    | nil => simp [List.isPrefixOf] at h
    | cons d l =>
      simp only [List.isPrefixOf, Bool.and_eq_true, beq_iff_eq] at h
      obtain ⟨rfl, h2⟩ := h
      simp only [List.cons_append, List.length_cons, List.drop_succ_cons]
      exact congrArg (c :: ·) (ih l h2)

theorem tryMarker_spec (m l out : List Char) (h : tryMarker m l = some out) :
    out.length = 11 ∧ out.all idChar = true ∧ ∃ post, l = m ++ out ++ post := by
  unfold tryMarker at h
  by_cases hpre : m.isPrefixOf l
  · rw [if_pos hpre] at h
    by_cases hcond : ((l.drop m.length).take 11).length = 11 ∧
        ((l.drop m.length).take 11).all idChar
    · rw [if_pos hcond] at h
      obtain rfl : (l.drop m.length).take 11 = out := Option.some.inj h
      refine ⟨hcond.1, hcond.2, (l.drop m.length).drop 11, ?_⟩
      rw [List.append_assoc, List.take_append_drop]
      exact isPrefixOf_append m l hpre
    · rw [if_neg hcond] at h
      exact Option.noConfusion h
  · rw [if_neg hpre] at h
    exact Option.noConfusion h

theorem tryAt_spec (l out : List Char) (h : tryAt l = some out) :
    ∃ m ∈ markerList, out.length = 11 ∧ out.all idChar = true ∧
      ∃ post, l = m ++ out ++ post := by
  unfold tryAt at h
  rcases h1 : tryMarker markerV l with _ | r
  all_goals rw [h1] at h
  case some => exact ⟨markerV, by simp [markerList], tryMarker_spec _ _ _ (h1.trans (congrArg some (Option.some.inj h)))⟩
  rcases h2 : tryMarker markerSlashV l with _ | r
  all_goals rw [h2] at h
  case some => exact ⟨markerSlashV, by simp [markerList], tryMarker_spec _ _ _ (h2.trans (congrArg some (Option.some.inj h)))⟩
  rcases h3 : tryMarker markerYoutuBe l with _ | r
  all_goals rw [h3] at h
  case some => exact ⟨markerYoutuBe, by simp [markerList], tryMarker_spec _ _ _ (h3.trans (congrArg some (Option.some.inj h)))⟩
  exact ⟨markerEmbed, by simp [markerList], tryMarker_spec _ _ _ h⟩

theorem searchId_spec (l out : List Char) (h : searchId l = some out) :
    out.length = 11 ∧ out.all idChar = true ∧
      ∃ m ∈ markerList, ∃ pre post, l = pre ++ m ++ out ++ post := by
  induction l with
  | nil => exact Option.noConfusion h
  | cons c rest ih =>
    rw [searchId] at h
    rcases h1 : tryAt (c :: rest) with _ | r
    · rw [h1] at h
      obtain ⟨hlen, hall, m, hm, pre, post, hsplit⟩ := ih h
      exact ⟨hlen, hall, m, hm, c :: pre, post, by subst hsplit; simp⟩
    · rw [h1] at h
      obtain rfl : r = out := Option.some.inj h
      obtain ⟨m, hm, hlen, hall, post, hsplit⟩ := tryAt_spec _ _ h1
      exact ⟨hlen, hall, m, hm, [], post, by simpa using hsplit⟩

/-- C10: `extract_video_id` returns `None` or a string of exactly 11
characters from `[A-Za-z0-9_-]` occurring in the input immediately after one
of the markers `v=`, `/v/`, `youtu.be/`, `/embed/`. -/
theorem extract_video_id_spec (url v : String) (h : extract_video_id url = some v) :
    v.length = 11 ∧ v.data.all idChar = true ∧
      ∃ m ∈ markerList, ∃ pre post, url.data = pre ++ m ++ v.data ++ post := by
  unfold extract_video_id at h
  rcases hs : searchId url.data with _ | l
  · rw [hs] at h
    exact Option.noConfusion h
  · rw [hs] at h
    obtain rfl : (⟨l⟩ : String) = v := Option.some.inj h
    exact searchId_spec url.data l hs

theorem extract_video_id_spec_witness :
    extract_video_id "https://youtu.be/dQw4w9WgXcQ" = some "dQw4w9WgXcQ" ∧
    ((("dQw4w9WgXcQ" : String).length = 11 ∧
      ("dQw4w9WgXcQ" : String).data.all idChar = true ∧
      ∃ m ∈ markerList, ∃ pre post,
        ("https://youtu.be/dQw4w9WgXcQ" : String).data =
          pre ++ m ++ ("dQw4w9WgXcQ" : String).data ++ post)) :=
  ⟨by decide, extract_video_id_spec "https://youtu.be/dQw4w9WgXcQ" "dQw4w9WgXcQ" (by decide)⟩

/-! ### C8 and C9: the slash-collapsing sanitization -/

theorem afterRun_cons_slash (rest : List Char) : afterRun ('/' :: rest) = afterRun rest := by
  simp [afterRun, List.dropWhile_cons]

theorem afterRun_cons_ne {c : Char} (hc : ¬ c = '/') (rest : List Char) :
    afterRun (c :: rest) = c :: rest := by
  simp [afterRun, List.dropWhile_cons, hc]

theorem slashRun_cons_slash (rest : List Char) :
    slashRun ('/' :: rest) = 1 + slashRun rest := by
  simp [slashRun, List.takeWhile_cons]
  omega

theorem slashRun_cons_ne {c : Char} (hc : ¬ c = '/') (rest : List Char) :
    slashRun (c :: rest) = 0 := by
  simp [slashRun, List.takeWhile_cons, hc]

theorem head_afterRun (l : List Char) : ∀ c, (afterRun l).head? = some c → ¬ c = '/' := by
  induction l with
  | nil => intro c h; simp [afterRun] at h
  | cons d rest ih =>
    by_cases hd : d = '/'
    · subst hd
      rw [afterRun_cons_slash]
      exact ih
    · rw [afterRun_cons_ne hd]
      intro c h
      obtain rfl : d = c := Option.some.inj h
      exact hd

theorem afterRun_of_slashRun_zero {l : List Char} (h : slashRun l = 0) : afterRun l = l := by
  cases l with
  | nil => rfl
  | cons c rest =>
    by_cases hc : c = '/'
    · subst hc
      rw [slashRun_cons_slash] at h
      omega
    · exact afterRun_cons_ne hc rest

theorem slashRun_of_head_ne {l : List Char} (h : ∀ c, l.head? = some c → ¬ c = '/') :
    slashRun l = 0 := by
  cases l with
  | nil => rfl
  | cons c rest => exact slashRun_cons_ne (h c rfl) rest

theorem sanGo_cons_keep {c : Char} {p2 p1 : Option Char}
    (h : ¬ (c = '/' ∧ p1 = some '/' ∧ p2 ≠ some ':')) (rest : List Char) :
    sanGo p2 p1 (c :: rest) = c :: sanGo p1 (some c) rest := by
  simp only [sanGo]
  rw [if_neg h]

theorem sanGo_cons_drop {p2 p1 : Option Char} (h1 : p1 = some '/') (h2 : p2 ≠ some ':')
    (rest : List Char) :
    sanGo p2 p1 ('/' :: rest) = sanGo p1 (some '/') rest := by
  simp only [sanGo]
  rw [if_pos ⟨trivial, h1, h2⟩]

theorem specGo_nil (prev : Option Char) : specGo prev [] = [] := by
  simp [specGo]

theorem specGo_cons_slash (prev : Option Char) (rest : List Char) :
    specGo prev ('/' :: rest) =
      (if prev = some ':' then List.replicate (min (1 + slashRun rest) 2) '/' else ['/']) ++
        specGo (some '/') (afterRun rest) := by
  simp only [specGo]
  rw [if_pos trivial]

theorem specGo_cons_ne {c : Char} (hc : ¬ c = '/') (prev : Option Char) (rest : List Char) :
    specGo prev (c :: rest) = c :: specGo (some c) rest := by
  simp only [specGo]
  rw [if_neg hc]

theorem head_specGo (prev : Option Char) (m : List Char)
    (hm : ∀ c, m.head? = some c → ¬ c = '/') :
    ∀ c, (specGo prev m).head? = some c → ¬ c = '/' := by
  cases m with
  | nil =>
    rw [specGo_nil]
    intro c h
    exact Option.noConfusion h
  | cons d m₂ =>
    have hd : ¬ d = '/' := hm d rfl
    rw [specGo_cons_ne hd]
    intro c h
    obtain rfl : d = c := Option.some.inj h
    exact hd

/-- Dropping state: once two slashes of a run not preceded by a colon have
been seen, the rest of the run is consumed without output. -/
theorem sanGo_skip (l : List Char) :
    sanGo (some '/') (some '/') l = sanGo (some '/') (some '/') (afterRun l) := by
  induction l with
  | nil => rfl
  | cons c rest ih =>
    by_cases hc : c = '/'
    · subst hc
      rw [afterRun_cons_slash, sanGo_cons_drop rfl (by decide) rest]
      exact ih
    · rw [afterRun_cons_ne hc]

/-- The regex pass and the run-based reference formulation agree.  Part one:
from any state whose previous character is not `/` (so the next character,
slash or not, starts afresh); part two: from the state just after a
processed run (previous character `/`, next character not `/`). -/
theorem sanGo_specGo_aux (n : Nat) :
    (∀ (l : List Char) (p2 p1 : Option Char), l.length ≤ n → p1 ≠ some '/' →
      sanGo p2 p1 l = specGo p1 l) ∧
    (∀ (l : List Char) (q : Option Char), l.length ≤ n →
      (∀ c, l.head? = some c → ¬ c = '/') →
      sanGo q (some '/') l = specGo (some '/') l) := by
  induction n with
  | zero =>
    constructor
    · intro l p2 p1 hl _
      obtain rfl : l = [] := List.length_eq_zero.mp (Nat.le_zero.mp hl)
      rw [specGo_nil]
      rfl
    · intro l q hl _
      obtain rfl : l = [] := List.length_eq_zero.mp (Nat.le_zero.mp hl)
      rw [specGo_nil]
      rfl
  | succ n ihn =>
    obtain ⟨ih1, ih2⟩ := ihn
    constructor
    · intro l p2 p1 hl hp1
      cases l with
      | nil =>
        rw [specGo_nil]
        rfl
      | cons c rest =>
        have hlrest : rest.length ≤ n := by
          simp only [List.length_cons] at hl
          omega
        by_cases hc : c = '/'
        · subst hc
          rw [sanGo_cons_keep (fun hcon => hp1 hcon.2.1) rest, specGo_cons_slash]
          cases rest with
          | nil =>
            by_cases hp : p1 = some ':'
            · rw [if_pos hp]
              simp [sanGo, slashRun, afterRun, specGo_nil, List.replicate]
            · rw [if_neg hp]
              simp [sanGo, afterRun, specGo_nil]
          | cons c₂ rest₂ =>
            by_cases hc₂ : c₂ = '/'
            · subst hc₂
              have hmin : min (1 + slashRun ('/' :: rest₂)) 2 = 2 := by
                rw [slashRun_cons_slash]
                omega
              have hlen2 : (afterRun rest₂).length ≤ n := by
                have h₁ := afterRun_length_le rest₂
                simp only [List.length_cons] at hl
                omega
              have hih := ih2 (afterRun rest₂) (some '/') hlen2 (head_afterRun rest₂)
              by_cases hp : p1 = some ':'
              · rw [if_pos hp, hmin, afterRun_cons_slash]
                subst hp
                rw [sanGo_cons_keep (fun hcon => hcon.2.2 rfl) rest₂, sanGo_skip rest₂, hih]
                rfl
              · rw [if_neg hp, afterRun_cons_slash,
                  sanGo_cons_drop rfl hp rest₂, sanGo_skip rest₂, hih]
                rfl
            · have hih := ih2 (c₂ :: rest₂) p1 hlrest
                (fun d hd => Option.some.inj hd ▸ hc₂)
              rw [hih, afterRun_cons_ne hc₂, slashRun_cons_ne hc₂]
              by_cases hp : p1 = some ':'
              · rw [if_pos hp, (by decide : min (1 + 0) 2 = 1)]
                rfl
              · rw [if_neg hp]
                rfl
        · rw [sanGo_cons_keep (fun hcon => hc hcon.1) rest, specGo_cons_ne hc]
          exact congrArg (c :: ·)
            (ih1 rest p1 (some c) hlrest (fun hcon => hc (Option.some.inj hcon)))
    · intro l q hl hhead
      cases l with
      | nil =>
        rw [specGo_nil]
        rfl
      | cons c rest =>
        have hc : ¬ c = '/' := hhead c rfl
        have hlrest : rest.length ≤ n := by
          simp only [List.length_cons] at hl
          omega
        rw [sanGo_cons_keep (fun hcon => hc hcon.1) rest, specGo_cons_ne hc]
        exact congrArg (c :: ·)
          (ih1 rest (some '/') (some c) hlrest (fun hcon => hc (Option.some.inj hcon)))

theorem sanGo_eq_specGo (l : List Char) : sanGo none none l = specGo none l :=
  (sanGo_specGo_aux l.length).1 l none none le_rfl (fun h => Option.noConfusion h)

theorem sanitize_eq_specSanitize (s : String) : sanitize s = specSanitize s :=
  congrArg String.mk (sanGo_eq_specGo s.data)

/-- Normal form of a sanitized string: every maximal slash run has length 1,
except that a run immediately after `:` may have length 2. -/
def goodGo : Option Char → List Char → Prop
  | _, [] => True
  | prev, c :: rest =>
    if c = '/' then
      (if prev = some ':' then 1 + slashRun rest ≤ 2 else slashRun rest = 0) ∧
        goodGo (some '/') (afterRun rest)
    else goodGo (some c) rest
termination_by _ l => l.length
decreasing_by
  · simp only [List.length_cons]
    exact Nat.lt_succ_of_le (afterRun_length_le rest)
  · simp only [List.length_cons]
    exact Nat.lt_succ_self rest.length

theorem goodGo_nil (prev : Option Char) : goodGo prev [] := by
  simp [goodGo]

theorem goodGo_cons_slash (prev : Option Char) (rest : List Char) :
    goodGo prev ('/' :: rest) =
      ((if prev = some ':' then 1 + slashRun rest ≤ 2 else slashRun rest = 0) ∧
        goodGo (some '/') (afterRun rest)) := by
  simp only [goodGo]
  rw [if_pos trivial]

theorem goodGo_cons_ne {c : Char} (hc : ¬ c = '/') (prev : Option Char) (rest : List Char) :
    goodGo prev (c :: rest) = goodGo (some c) rest := by
  simp only [goodGo]
  rw [if_neg hc]

/-- A string in normal form is a fixed point of the reference collapsing. -/
theorem goodGo_fix (n : Nat) :
    ∀ (l : List Char) (prev : Option Char), l.length ≤ n → goodGo prev l →
      specGo prev l = l := by
  induction n with
  | zero =>
    intro l prev hl _
    obtain rfl : l = [] := List.length_eq_zero.mp (Nat.le_zero.mp hl)
    exact specGo_nil prev
  | succ n ih =>
    intro l prev hl hg
    cases l with
    | nil => exact specGo_nil prev
    | cons c rest =>
      have hlrest : rest.length ≤ n := by
        simp only [List.length_cons] at hl
        omega
      by_cases hc : c = '/'
      · subst hc
        rw [goodGo_cons_slash] at hg
        obtain ⟨hrun, hrec⟩ := hg
        rw [specGo_cons_slash]
        by_cases hp : prev = some ':'
        · rw [if_pos hp] at hrun ⊢
          rcases Nat.lt_or_ge (slashRun rest) 1 with h0 | h1
          · have h0' : slashRun rest = 0 := by omega
            rw [afterRun_of_slashRun_zero h0'] at hrec ⊢
            rw [h0', (by decide : min (1 + 0) 2 = 1), ih rest (some '/') hlrest hrec]
            rfl
          · have h1' : slashRun rest = 1 := by omega
            obtain ⟨rest₂, rfl⟩ : ∃ rest₂, rest = '/' :: rest₂ := by
              cases rest with
              | nil => simp [slashRun] at h1'
              | cons d rest₂ =>
                by_cases hd : d = '/'
                · exact ⟨rest₂, by rw [hd]⟩
                · rw [slashRun_cons_ne hd] at h1'
                  omega
            rw [slashRun_cons_slash] at h1'
            have h0' : slashRun rest₂ = 0 := by omega
            rw [afterRun_cons_slash, afterRun_of_slashRun_zero h0'] at hrec ⊢
            have hlen2 : rest₂.length ≤ n := by
              simp only [List.length_cons] at hlrest
              omega
            rw [slashRun_cons_slash, h0',
              (by decide : min (1 + (1 + 0)) 2 = 2),
              ih rest₂ (some '/') hlen2 hrec]
            rfl
        · rw [if_neg hp] at hrun ⊢
          rw [afterRun_of_slashRun_zero hrun] at hrec ⊢
          rw [ih rest (some '/') hlrest hrec]
          rfl
      · rw [goodGo_cons_ne hc] at hg
        rw [specGo_cons_ne hc, ih rest (some c) hlrest hg]

/-- The reference collapsing always produces a string in normal form. -/
theorem goodGo_specGo (n : Nat) :
    ∀ (l : List Char) (prev : Option Char), l.length ≤ n →
      goodGo prev (specGo prev l) := by
  induction n with
  | zero =>
    intro l prev hl
    obtain rfl : l = [] := List.length_eq_zero.mp (Nat.le_zero.mp hl)
    rw [specGo_nil]
    exact goodGo_nil prev
  | succ n ih =>
    intro l prev hl
    cases l with
    | nil =>
      rw [specGo_nil]
      exact goodGo_nil prev
    | cons c rest =>
      have hlrest : rest.length ≤ n := by
        simp only [List.length_cons] at hl
        omega
      by_cases hc : c = '/'
      · subst hc
        rw [specGo_cons_slash]
        have hhx : ∀ d, (specGo (some '/') (afterRun rest)).head? = some d → ¬ d = '/' :=
          head_specGo (some '/') (afterRun rest) (head_afterRun rest)
        have hsr : slashRun (specGo (some '/') (afterRun rest)) = 0 :=
          slashRun_of_head_ne hhx
        have hlen2 : (afterRun rest).length ≤ n :=
          le_trans (afterRun_length_le rest) hlrest
        have hrec : goodGo (some '/') (specGo (some '/') (afterRun rest)) :=
          ih (afterRun rest) (some '/') hlen2
        by_cases hp : prev = some ':'
        · rw [if_pos hp]
          subst hp
          rcases Nat.eq_zero_or_pos (slashRun rest) with h0 | hpos
          · rw [h0, (by decide : min (1 + 0) 2 = 1)]
            show goodGo (some ':') ('/' :: specGo (some '/') (afterRun rest))
            rw [goodGo_cons_slash, if_pos rfl, afterRun_of_slashRun_zero hsr]
            exact ⟨by omega, hrec⟩
          · have hmin : min (1 + slashRun rest) 2 = 2 := by omega
            rw [hmin]
            show goodGo (some ':') ('/' :: '/' :: specGo (some '/') (afterRun rest))
            rw [goodGo_cons_slash, if_pos rfl]
            constructor
            · rw [slashRun_cons_slash, hsr]
            · rw [afterRun_cons_slash, afterRun_of_slashRun_zero hsr]
              exact hrec
        · rw [if_neg hp]
          show goodGo prev ('/' :: specGo (some '/') (afterRun rest))
          rw [goodGo_cons_slash, if_neg hp, afterRun_of_slashRun_zero hsr]
          exact ⟨hsr, hrec⟩
      · rw [specGo_cons_ne hc, goodGo_cons_ne hc]
        exact ih rest (some c) hlrest

theorem specGo_idem (prev : Option Char) (l : List Char) :
    specGo prev (specGo prev l) = specGo prev l :=
  goodGo_fix (specGo prev l).length (specGo prev l) prev le_rfl
    (goodGo_specGo l.length l prev le_rfl)

/-- C8: the sanitization of line 125 collapses every run of two or more
consecutive slashes into a single slash, except that the `//` immediately
following a `:` (the URI scheme separator, as in `https://`) is preserved:
it agrees with the run-based reference formulation `specSanitize` of that
rule on every string, and maps the cited examples as the claim states. -/
theorem sanitize_collapse :
    (∀ s : String, sanitize s = specSanitize s) ∧
    sanitize "https://host//a///b" = "https://host/a/b" ∧
    sanitize "https://host" = "https://host" ∧
    sanitize "https://x//y" = "https://x/y" :=
  ⟨sanitize_eq_specSanitize, by decide, by decide, by decide⟩

/-- C9: the sanitization is idempotent. -/
theorem sanitize_idempotent (s : String) : sanitize (sanitize s) = sanitize s := by
  show String.mk (sanGo none none (sanGo none none s.data)) =
    String.mk (sanGo none none s.data)
  rw [sanGo_eq_specGo s.data, sanGo_eq_specGo (specGo none s.data), specGo_idem]

end YTView
